import Mathlib

/-!
# multiconfig: `LoadInTurn` and the file loaders

A shallow embedding of `load.go` and `file.go`.

* Go strings are byte sequences: `GoString` is a list of byte values, `len` is
  `List.length`, `s[:i]` is `List.take`.
* The operating system, the format decoders and the loaders whose code lives in
  other packages or files (`TagLoader`, `EnvironmentLoader`, `FlagLoader`,
  `RequiredValidator`) are fields of an environment record `Env`, so every
  theorem holds for each behaviour they may have.
* Effects (`os.Getwd`, `os.Open`, `Close`, decoder calls, `log.Infof`,
  `log.Warn`, a `Load` call on a loader) are recorded as a list of `Event`s in
  program order.
* Paths follow the Unix build of `path/filepath`: `Separator` is `/` and
  `IsAbs` tests for a leading separator.
-/

namespace Multiconfig

/-! ## Strings -/

abbrev Byte := Nat

abbrev GoString := List Byte

/-- The bytes of an ASCII literal of the source. -/
def str (s : String) : GoString := s.toList.map Char.toNat

/-- The constant `filepath.Separator` (Unix). -/
def Separator : Byte := 47

/-- The function `strings.HasSuffix`. -/
def HasSuffix (s suffix : GoString) : Bool :=
  decide (suffix.length ≤ s.length) && (s.drop (s.length - suffix.length) == suffix)

/-- The loop of `strings.LastIndexByte`, `for i := n - 1; i >= 0; i--`: the
greatest index below `n` where `s` has the byte `c`, or `-1`. -/
def LastIndexByte.go (s : GoString) (c : Byte) : Nat → Int
  | 0 => -1
  | i + 1 => if s.getD i 0 = c then (i : Int) else LastIndexByte.go s c i

/-- The function `strings.LastIndexByte`: the index of the last occurrence of
`c` in `s`, scanning from `len(s)-1` down to `0`, or `-1`. -/
def LastIndexByte (s : GoString) (c : Byte) : Int :=
  LastIndexByte.go s c s.length

/-- The function `filepath.IsAbs` (Unix): the path starts with a separator. -/
def IsAbs (path : GoString) : Bool :=
  match path with
  | c :: _ => c == Separator
  | [] => false

/-! ## Errors, readers, files -/

/-- Error values. `ErrSourceNotSet` and `ErrFileNotFound` are the two package
variables made by `errors.New`; `Errorf` is a fresh error made by `fmt.Errorf`
with the given text; `os` is an error of the `os` package, `notExist` telling
what `os.IsNotExist` answers on it; `ext` is an error produced by code outside
these two files (decoders, other loaders, the validator). -/
inductive Error where
  | ErrSourceNotSet
  | ErrFileNotFound
  | Errorf (msg : GoString)
  | os (code : Nat) (notExist : Bool)
  | ext (code : Nat)
  deriving DecidableEq, Repr

/-- The function `os.IsNotExist` on a non-nil error. -/
def IsNotExist : Error → Bool
  | .os _ b => b
  | _ => false

/-- An `io.Reader`: what `ioutil.ReadAll` returns on it. -/
structure Reader where
  data : GoString
  readErr : Option Error
  deriving DecidableEq, Repr

/-- An open `*os.File`: its name and the reader it is. -/
structure File where
  name : GoString
  reader : Reader
  deriving DecidableEq, Repr

inductive Format where
  | toml
  | json
  | yaml
  deriving DecidableEq, Repr

/-- The value `fmt.Errorf("file %s not exist", path)`. -/
def notExistError (path : GoString) : Error :=
  .Errorf (str "file " ++ path ++ str " not exist")

/-! ## Loaders -/

/-- The struct `TOMLLoader`. A nil `Reader` is `none`. -/
structure TOMLLoader where
  Path : GoString
  Reader : Option Reader
  deriving DecidableEq, Repr

/-- The struct `JSONLoader`. -/
structure JSONLoader where
  Path : GoString
  Reader : Option Reader
  deriving DecidableEq, Repr

/-- The struct `YAMLLoader`. -/
structure YAMLLoader where
  Path : GoString
  Reader : Option Reader
  deriving DecidableEq, Repr

/-- The type `flag.ErrorHandling`; `ContinueOnError` is its zero value. -/
inductive ErrorHandling where
  | ContinueOnError
  | ExitOnError
  | PanicOnError
  deriving DecidableEq, Repr

/-- The fields of `FlagLoader` that `LoadInTurn` sets. -/
structure FlagLoader where
  Prefix : GoString
  Flatten : Bool
  CamelCase : Bool
  ErrorHandling : ErrorHandling
  deriving DecidableEq, Repr

/-- The field of `EnvironmentLoader` that `LoadInTurn` sets. -/
structure EnvironmentLoader where
  CamelCase : Bool
  deriving DecidableEq, Repr

/-- The values of interface type `Loader` that occur in `LoadInTurn`. -/
inductive Loader where
  | Tag
  | JSON (j : JSONLoader)
  | YAML (y : YAMLLoader)
  | TOML (t : TOMLLoader)
  | Environment (e : EnvironmentLoader)
  | Flag (f : FlagLoader)
  deriving DecidableEq, Repr

/-- Effects, in program order. -/
inductive Event where
  | getwd
  | osOpen (path : GoString)
  | close (name : GoString)
  | decode (fmt : Format)
  | info (msg : GoString)
  | warn (err : Error)
  | load (l : Loader)
  | validate
  deriving DecidableEq, Repr

/-- What lies outside the two files: the operating system, `filepath.Join`,
the three decoders, the loaders and the validator defined elsewhere, and the
target's `GetConf` method. `σ` is the type of the target. A decoder or loader
maps the target to the target it leaves behind and the error it returns; a
call that ends the process (`flag.ExitOnError`) or panics has no outcome and is
not described here. -/
structure Env (σ : Type) where
  Getwd : Except Error GoString
  Open : GoString → Except Error Reader
  Join : GoString → GoString → GoString
  DecodeReader : Reader → σ → σ × Option Error
  Decode : Reader → σ → σ × Option Error
  Unmarshal : GoString → σ → σ × Option Error
  tagLoad : σ → σ × Option Error
  envLoad : EnvironmentLoader → σ → σ × Option Error
  flagLoad : FlagLoader → σ → σ × Option Error
  Validate : σ → Option Error
  GetConf : σ → GoString

/-- The result of running a piece of code on a target: the target it leaves,
the error it returns (`none` for nil) and the effects it performed. -/
structure Outcome (σ : Type) where
  target : σ
  err : Option Error
  events : List Event
  deriving DecidableEq, Repr

/-! ## file.go -/

/-- The `for` loop of `getConfig` on the current `pwd`; the first argument
bounds the number of iterations and `none` means the bound was reached. -/
def getConfig.search {σ : Type} (env : Env σ) (path : GoString) :
    Nat → GoString → Option (Except Error File × List Event)
  | 0, _ => none
  | fuel + 1, pwd =>
    if pwd.length ≤ 1 then
      some (.error (notExistError path), [])
    else
      let abs := env.Join pwd path
      match env.Open abs with
      | .ok r => some (.ok ⟨abs, r⟩, [.osOpen abs, .info (str "read conf file " ++ abs)])
      | .error err =>
        if !IsNotExist err then
          some (.error err, [.osOpen abs])
        else
          let i := LastIndexByte pwd Separator
          if i == -1 then
            some (.error (notExistError path), [.osOpen abs])
          else
            (getConfig.search env path fuel (pwd.take i.toNat)).map
              fun res => (res.1, .osOpen abs :: res.2)

/-- The function `getConfig`: the opened file or the error, with the effects
performed. The loop shortens `pwd` in every iteration, so `len(pwd) + 1`
iterations are allowed. -/
def getConfig {σ : Type} (env : Env σ) (path : GoString) :
    Option (Except Error File × List Event) :=
  if IsAbs path then
    match env.Open path with
    | .error err =>
      if IsNotExist err then
        some (.error (notExistError path), [.osOpen path])
      else
        some (.error err, [.osOpen path, .info (str "read conf file " ++ path)])
    | .ok r => some (.ok ⟨path, r⟩, [.osOpen path, .info (str "read conf file " ++ path)])
  else
    match env.Getwd with
    | .error err => some (.error err, [.getwd])
    | .ok pwd =>
      (getConfig.search env path (pwd.length + 1) pwd).map
        fun res => (res.1, .getwd :: res.2)

/-- The method `(*TOMLLoader).Load`. -/
def TOMLLoader.Load {σ : Type} (env : Env σ) (t : TOMLLoader) (s : σ) : Option (Outcome σ) :=
  match t.Reader with
  | some r =>
    let d := env.DecodeReader r s
    some ⟨d.1, d.2, [.decode .toml]⟩
  | none =>
    if t.Path ≠ [] then
      match getConfig env t.Path with
      | none => none
      | some (.error err, evs) => some ⟨s, some err, evs⟩
      | some (.ok file, evs) =>
        let d := env.DecodeReader file.reader s
        some ⟨d.1, d.2, evs ++ [.decode .toml, .close file.name]⟩
    else
      some ⟨s, some .ErrSourceNotSet, []⟩

/-- The method `(*JSONLoader).Load`. -/
def JSONLoader.Load {σ : Type} (env : Env σ) (j : JSONLoader) (s : σ) : Option (Outcome σ) :=
  match j.Reader with
  | some r =>
    let d := env.Decode r s
    some ⟨d.1, d.2, [.decode .json]⟩
  | none =>
    if j.Path ≠ [] then
      match getConfig env j.Path with
      | none => none
      | some (.error err, evs) => some ⟨s, some err, evs⟩
      | some (.ok file, evs) =>
        let d := env.Decode file.reader s
        some ⟨d.1, d.2, evs ++ [.decode .json, .close file.name]⟩
    else
      some ⟨s, some .ErrSourceNotSet, []⟩

/-- The tail of `(*YAMLLoader).Load`: `ioutil.ReadAll(r)`, its error returned
if there is one, then `yaml.Unmarshal(data, s)`. -/
def readAllUnmarshal {σ : Type} (env : Env σ) (r : Reader) (s : σ) : Outcome σ :=
  match r.readErr with
  | some err => ⟨s, some err, []⟩
  | none =>
    let d := env.Unmarshal r.data s
    ⟨d.1, d.2, [.decode .yaml]⟩

/-- The method `(*YAMLLoader).Load`. -/
def YAMLLoader.Load {σ : Type} (env : Env σ) (y : YAMLLoader) (s : σ) : Option (Outcome σ) :=
  match y.Reader with
  | some r => some (readAllUnmarshal env r s)
  | none =>
    if y.Path ≠ [] then
      match getConfig env y.Path with
      | none => none
      | some (.error err, evs) => some ⟨s, some err, evs⟩
      | some (.ok file, evs) =>
        let d := readAllUnmarshal env file.reader s
        some ⟨d.target, d.err, evs ++ d.events ++ [.close file.name]⟩
    else
      some ⟨s, some .ErrSourceNotSet, []⟩

/-! ## load.go -/

/-- The method `Load` of a value of interface type `Loader`, recording the
call. The Tag, Environment and Flag loaders are the environment's. -/
def Loader.Load {σ : Type} (env : Env σ) (l : Loader) (s : σ) : Option (Outcome σ) :=
  let run : Option (Outcome σ) :=
    match l with
    | .Tag => let d := env.tagLoad s; some ⟨d.1, d.2, []⟩
    | .JSON j => j.Load env s
    | .YAML y => y.Load env s
    | .TOML t => t.Load env s
    | .Environment e => let d := env.envLoad e s; some ⟨d.1, d.2, []⟩
    | .Flag f => let d := env.flagLoad f s; some ⟨d.1, d.2, []⟩
  run.map fun o => ⟨o.target, o.err, .load l :: o.events⟩

/-- The variable `flagLoader` of `LoadInTurn`. -/
def flagLoader : FlagLoader :=
  { Prefix := [], Flatten := false, CamelCase := true, ErrorHandling := .ExitOnError }

/-- The slice literal ranged over by the first loop of `LoadInTurn`. -/
def firstPassLoaders : List Loader :=
  [ .Tag,
    .JSON { Path := str "conf/conf.json", Reader := none },
    .YAML { Path := str "conf/conf.yml", Reader := none },
    .YAML { Path := str "conf/conf.yaml", Reader := none },
    .TOML { Path := str "conf/conf.toml", Reader := none },
    .Environment { CamelCase := true },
    .Flag flagLoader ]

/-- The loop `for _, loader := range ... { if err := loader.Load(conf); err != nil
{ log.Warn(err) } }` over the given loaders: the target left behind and the
effects; the errors go to `log.Warn` only. -/
def bestEffort {σ : Type} (env : Env σ) : List Loader → σ → Option (σ × List Event)
  | [], s => some (s, [])
  | l :: ls, s =>
    match l.Load env s with
    | none => none
    | some o =>
      let warned := match o.err with
        | some err => o.events ++ [.warn err]
        | none => o.events
      (bestEffort env ls o.target).map fun r => (r.1, warned ++ r.2)

/-- The first loop of `LoadInTurn`. -/
def firstPass {σ : Type} (env : Env σ) (s : σ) : Option (σ × List Event) :=
  bestEffort env firstPassLoaders s

/-- The value `&FlagLoader{}`: every field at its zero value. -/
def zeroFlagLoader : FlagLoader :=
  { Prefix := [], Flatten := false, CamelCase := false, ErrorHandling := .ContinueOnError }

/-- The slice `loaders` built by `LoadInTurn` for a non-empty `path`. -/
def secondPassLoaders (path : GoString) : List Loader :=
  let loaders : List Loader := []
  let loaders :=
    if HasSuffix path (str "toml") then
      loaders ++ [Loader.TOML { Path := path, Reader := none }]
    else if HasSuffix path (str "json") then
      loaders ++ [Loader.JSON { Path := path, Reader := none }]
    else if HasSuffix path (str "yml") || HasSuffix path (str "yaml") then
      loaders ++ [Loader.YAML { Path := path, Reader := none }]
    else loaders
  loaders ++ [Loader.Flag zeroFlagLoader]

/-- Modelled from the spec: `MultiLoader` and the `Load` method of the loader it
returns are not among the source files. Spec 4.5 and 4.6 step 3: the composite
loader invokes each constituent's `Load` in the order given, and in the second
pass of `LoadInTurn` errors are fatal: the first error short-circuits and is
returned; with no error the result is nil. -/
def MultiLoader.Load {σ : Type} (env : Env σ) : List Loader → σ → Option (Outcome σ)
  | [], s => some ⟨s, none, []⟩
  | l :: ls, s =>
    match l.Load env s with
    | none => none
    | some o =>
      match o.err with
      | some err => some ⟨o.target, some err, o.events⟩
      | none =>
        (MultiLoader.Load env ls o.target).map
          fun r => ⟨r.target, r.err, o.events ++ r.events⟩

/-- The function `LoadInTurn`: the target it leaves, the error it returns and
the effects. -/
def LoadInTurn {σ : Type} (env : Env σ) (conf : σ) : Option (Outcome σ) :=
  match firstPass env conf with
  | none => none
  | some (conf1, evs1) =>
    if env.GetConf conf1 ≠ [] then
      let path := env.GetConf conf1
      match MultiLoader.Load env (secondPassLoaders path) conf1 with
      | none => none
      | some o =>
        match o.err with
        | some err => some ⟨o.target, some err, evs1 ++ o.events⟩
        | none => some ⟨o.target, env.Validate o.target, evs1 ++ o.events ++ [.validate]⟩
    else
      some ⟨conf1, env.Validate conf1, evs1 ++ [.validate]⟩

/-! ## Notions of the specification -/

/-- The paths passed to `os.Open`, in order. -/
def opened : List Event → List GoString
  | [] => []
  | .osOpen p :: evs => p :: opened evs
  | _ :: evs => opened evs

/-- The loaders whose `Load` was called, in order. -/
def loads : List Event → List Loader
  | [] => []
  | .load l :: evs => l :: loads evs
  | _ :: evs => loads evs

/-- The errors passed to `log.Warn`, in order. -/
def warned : List Event → List Error
  | [] => []
  | .warn e :: evs => e :: warned evs
  | _ :: evs => warned evs

/-- The file exists: `os.Open` succeeds on it. -/
def holds {σ : Type} (env : Env σ) (q : GoString) : Bool :=
  match env.Open q with
  | .ok _ => true
  | .error _ => false

/-- A directory cut at its last path separator: the part in front of the last
separator, `none` when it has no separator. -/
def parentDir : GoString → Option GoString
  | [] => none
  | b :: d =>
    match parentDir d with
    | some a => some (b :: a)
    | none => if b = Separator then some [] else none

/-- The directory itself, then its successive parents, nearest first; the
first argument bounds the number of parents taken. -/
def ancestorsAux : Nat → GoString → List GoString
  | 0, d => [d]
  | n + 1, d =>
    match parentDir d with
    | some a => d :: ancestorsAux n a
    | none => [d]

/-- The directory and all its successive parents, nearest first (a parent is
shorter than its child, so `len(d)` steps reach the end). -/
def ancestors (d : GoString) : List GoString := ancestorsAux d.length d

/-- The filesystem root as it shows up among the ancestors of a rooted
directory: `/`, or the empty string that cutting `/x` leaves. -/
def isRoot (a : GoString) : Bool := a == [] || a == [Separator]

/-- The directories a relative path is to be searched in: the working
directory and its successive parents, nearest first, the root excluded. -/
def searchDirs (d : GoString) : List GoString := (ancestors d).filter fun a => !isRoot a

/-- The elements of a list up to and including the first that satisfies `f`. -/
def upToFirst {α : Type} (f : α → Bool) : List α → List α
  | [] => []
  | a :: l => if f a then [a] else a :: upToFirst f l

/-- The search of a relative path in a given list of directories, in order:
the first directory where `os.Open` does not report not-exist decides. -/
def searchIn {σ : Type} (env : Env σ) (path : GoString) :
    List GoString → Except Error File × List Event
  | [] => (.error (notExistError path), [])
  | a :: dirs =>
    match env.Open (env.Join a path) with
    | .ok r =>
      (.ok ⟨env.Join a path, r⟩,
        [.osOpen (env.Join a path), .info (str "read conf file " ++ env.Join a path)])
    | .error err =>
      if IsNotExist err then
        ((searchIn env path dirs).1, .osOpen (env.Join a path) :: (searchIn env path dirs).2)
      else
        (.error err, [.osOpen (env.Join a path)])

/-- The effects a file loader performs below its `Load` call. -/
def Event.isFileIO : Event → Bool
  | .getwd | .osOpen _ | .close _ | .decode _ | .info _ => true
  | .warn _ | .load _ | .validate => false

/-! ## A concrete target and environment -/

set_option linter.dupNamespace false

/-- The struct `Conf` of load.go. -/
structure Conf where
  Conf : GoString
  Name : GoString
  LogLevel : GoString
  deriving DecidableEq, Repr

/-- The method `(*Conf).GetConf`. -/
def Conf.GetConf (c : Multiconfig.Conf) : GoString := c.Conf

/-- The zero value of `Conf`. -/
def Conf.zero : Multiconfig.Conf := { Conf := [], Name := [], LogLevel := [] }

/-- Modelled from the spec: `TagLoader.Load` is not among the source files.
Spec 2: it applies the struct-defined defaults; these are the `default` tags of
`Conf`. -/
def demoTagLoad (c : Conf) : Conf × Option Error :=
  ({ c with Name := str "aclogs", LogLevel := str "info" }, none)

/-- A stand-in decoder for the examples: the content of the source is the
value of `LogLevel`; empty content does not decode. -/
def demoDecode (data : GoString) (c : Conf) : Conf × Option Error :=
  if data = [] then (c, some (.ext 1)) else ({ c with LogLevel := data }, none)

/-- Modelled from the spec: `FlagLoader.Load` is not among the source files.
Spec 4.1 and 4.4: one flag per field, its name derived from the field name
under the loader's case convention (camel case split into words joined by `-`,
otherwise the name as declared), lower-cased. These are the names for the three
fields of `Conf`. -/
def demoFlagNames (f : FlagLoader) : List GoString :=
  [str "conf", str "name", if f.CamelCase then str "log-level" else str "loglevel"]

/-- Modelled from the spec: `FlagLoader.Load` is not among the source files.
Spec 4.4: the arguments (name and value) are parsed in order; a flag that is
set assigns its field, unset flags leave the field unchanged, an unknown flag
is an error (returned, as under `ContinueOnError`; the process exit of
`ExitOnError` is not modelled). -/
def demoFlagLoad (args : List (GoString × GoString)) (f : FlagLoader) (c : Conf) :
    Conf × Option Error :=
  match args with
  | [] => (c, none)
  | (name, value) :: rest =>
    if name = (demoFlagNames f).getD 0 [] then
      demoFlagLoad rest f { c with Conf := value }
    else if name = (demoFlagNames f).getD 1 [] then
      demoFlagLoad rest f { c with Name := value }
    else if name = (demoFlagNames f).getD 2 [] then
      demoFlagLoad rest f { c with LogLevel := value }
    else
      (c, some (.Errorf (str "flag provided but not defined: -" ++ name)))

/-- A filesystem with the given files; any other path does not exist. -/
def demoOpen (files : List (GoString × GoString)) (q : GoString) : Except Error Reader :=
  match files.lookup q with
  | some data => .ok ⟨data, none⟩
  | none => .error (.os 2 true)

/-- An environment for the examples: working directory `/srv/app`, the given
files and command-line arguments, no environment variables (the environment
loader leaves every field unchanged), no required field (`Conf` has no
`required` tag, so validation passes). `Join` puts a separator between its
arguments, which is what `filepath.Join` does on the clean paths used here. -/
def demoEnv (files : List (GoString × GoString)) (args : List (GoString × GoString)) :
    Env Conf where
  Getwd := .ok (str "/srv/app")
  Open := demoOpen files
  Join := fun a p => a ++ Separator :: p
  DecodeReader := fun r c => demoDecode r.data c
  Decode := fun r c => demoDecode r.data c
  Unmarshal := fun data c => demoDecode data c
  tagLoad := demoTagLoad
  envLoad := fun _ c => (c, none)
  flagLoad := demoFlagLoad args
  Validate := fun _ => none
  GetConf := Conf.GetConf


/-! ## Strings: lemmas -/

theorem LastIndexByte_go_of_not_mem (s : GoString) (c : Byte) (h : c ∉ s) :
    ∀ n, n ≤ s.length → LastIndexByte.go s c n = -1 := by
  intro n
  induction n with
  | zero => intro _; rfl
  | succ n ih =>
    intro hn
    have hlt : n < s.length := hn
    have hne : s.getD n 0 ≠ c := by
      intro heq
      apply h
      rw [← heq, List.getD_eq_getElem _ _ hlt]
      exact List.getElem_mem _
    simp only [LastIndexByte.go, if_neg hne]
    exact ih (Nat.le_of_lt hlt)

theorem LastIndexByte_go_of_split (a rest : GoString) (c : Byte) (h : c ∉ rest) :
    ∀ k, k ≤ rest.length →
      LastIndexByte.go (a ++ c :: rest) c (a.length + 1 + k) = (a.length : Int) := by
  intro k
  induction k with
  | zero =>
    intro _
    have : (a ++ c :: rest).getD a.length 0 = c := by
      rw [List.getD_eq_getElem?_getD, List.getElem?_append_right (Nat.le_refl _)]
      simp
    show LastIndexByte.go (a ++ c :: rest) c (a.length + 1) = _
    simp only [LastIndexByte.go, if_pos this]
  | succ k ih =>
    intro hk
    have hlt : k < rest.length := hk
    have hne : (a ++ c :: rest).getD (a.length + 1 + k) 0 ≠ c := by
      have hidx : (a ++ c :: rest).getD (a.length + 1 + k) 0 = rest[k] := by
        rw [List.getD_eq_getElem?_getD, List.getElem?_append_right (by omega)]
        have : a.length + 1 + k - a.length = k + 1 := by omega
        simp [this, List.getElem?_eq_getElem hlt]
      rw [hidx]
      intro heq
      exact h (heq ▸ List.getElem_mem _)
    show LastIndexByte.go (a ++ c :: rest) c ((a.length + 1 + k) + 1) = _
    simp only [LastIndexByte.go, if_neg hne]
    exact ih (Nat.le_of_lt hlt)

theorem exists_last_split (c : Byte) :
    ∀ s : GoString, c ∈ s → ∃ a rest, s = a ++ c :: rest ∧ c ∉ rest := by
  intro s
  induction s with
  | nil => intro h; cases h
  | cons b t ih =>
    intro h
    by_cases ht : c ∈ t
    · obtain ⟨a, rest, hs, hr⟩ := ih ht
      exact ⟨b :: a, rest, by rw [hs]; rfl, hr⟩
    · have hb : c = b := by
        rcases List.mem_cons.mp h with h | h
        · exact h
        · exact absurd h ht
      exact ⟨[], t, by rw [hb]; rfl, ht⟩

theorem LastIndexByte_of_not_mem (s : GoString) (c : Byte) (h : c ∉ s) :
    LastIndexByte s c = -1 :=
  LastIndexByte_go_of_not_mem s c h s.length (Nat.le_refl _)

theorem LastIndexByte_of_split (a rest : GoString) (c : Byte) (h : c ∉ rest) :
    LastIndexByte (a ++ c :: rest) c = (a.length : Int) := by
  have := LastIndexByte_go_of_split a rest c h rest.length (Nat.le_refl _)
  unfold LastIndexByte
  have hlen : (a ++ c :: rest).length = a.length + 1 + rest.length := by
    simp only [List.length_append, List.length_cons]; omega
  rw [hlen]
  exact this

theorem parentDir_of_not_mem : ∀ d : GoString, Separator ∉ d → parentDir d = none := by
  intro d
  induction d with
  | nil => intro _; rfl
  | cons b t ih =>
    intro h
    have ht : Separator ∉ t := fun hm => h (List.mem_cons_of_mem _ hm)
    have hb : b ≠ Separator := fun he => h (he ▸ List.mem_cons_self _ _)
    simp [parentDir, ih ht, hb]

theorem parentDir_of_split (rest : GoString) (h : Separator ∉ rest) :
    ∀ a : GoString, parentDir (a ++ Separator :: rest) = some a := by
  intro a
  induction a with
  | nil => simp [parentDir, parentDir_of_not_mem rest h]
  | cons b t ih => simp [parentDir, ih]

/-- The cut that `getConfig` computes with `LastIndexByte` and a slice is the
parent directory. -/
theorem parentDir_eq_cut (pwd : GoString) :
    parentDir pwd =
      if LastIndexByte pwd Separator == -1 then none
      else some (pwd.take (LastIndexByte pwd Separator).toNat) := by
  by_cases h : Separator ∈ pwd
  · obtain ⟨a, rest, hs, hr⟩ := exists_last_split Separator pwd h
    subst hs
    rw [parentDir_of_split rest hr, LastIndexByte_of_split a rest _ hr]
    have : ¬ ((a.length : Int) = -1) := by omega
    simp [this]
  · rw [parentDir_of_not_mem pwd h, LastIndexByte_of_not_mem pwd _ h]
    simp

theorem parentDir_length {d a : GoString} (h : parentDir d = some a) : a.length < d.length := by
  by_cases hm : Separator ∈ d
  · obtain ⟨a', rest, hs, hr⟩ := exists_last_split Separator d hm
    subst hs
    rw [parentDir_of_split rest hr] at h
    cases h
    simp
  · rw [parentDir_of_not_mem d hm] at h
    cases h

theorem ancestorsAux_fuel :
    ∀ (n m : Nat) (a : GoString), a.length ≤ n → a.length ≤ m →
      ancestorsAux n a = ancestorsAux m a := by
  intro n
  induction n with
  | zero =>
    intro m a hn _
    have ha : a = [] := List.length_eq_zero.mp (Nat.le_zero.mp hn)
    subst ha
    cases m <;> simp [ancestorsAux, parentDir]
  | succ n ih =>
    intro m a hn hm
    cases m with
    | zero =>
      have ha : a = [] := List.length_eq_zero.mp (Nat.le_zero.mp hm)
      subst ha
      simp [ancestorsAux, parentDir]
    | succ m =>
      simp only [ancestorsAux]
      cases hp : parentDir a with
      | none => rfl
      | some b =>
        have hb := parentDir_length hp
        simp only
        rw [ih m b (by omega) (by omega)]

theorem ancestors_eq (d : GoString) :
    ancestors d = match parentDir d with
      | some a => d :: ancestors a
      | none => [d] := by
  unfold ancestors
  cases hd : d.length with
  | zero =>
    have ha : d = [] := List.length_eq_zero.mp hd
    subst ha
    simp [ancestorsAux, parentDir]
  | succ n =>
    simp only [ancestorsAux]
    cases hp : parentDir d with
    | none => rfl
    | some b =>
      have hb := parentDir_length hp
      simp only
      rw [ancestorsAux_fuel n b.length b (by omega) (Nat.le_refl _)]

/-! ## getConfig: lemmas -/

theorem LastIndexByte_lt {pwd : GoString} (h : (LastIndexByte pwd Separator == -1) = false) :
    (LastIndexByte pwd Separator).toNat < pwd.length := by
  have hcut := parentDir_eq_cut pwd
  rw [h] at hcut
  simp only [Bool.false_eq_true, if_false] at hcut
  have hlen := parentDir_length hcut
  by_cases hm : Separator ∈ pwd
  · obtain ⟨a, rest, hs, hr⟩ := exists_last_split Separator pwd hm
    subst hs
    rw [LastIndexByte_of_split a rest _ hr]
    simp
  · rw [LastIndexByte_of_not_mem pwd _ hm] at h
    simp at h

/-- The loop of `getConfig` ends within `len(pwd) + 1` iterations. -/
theorem getConfig_search_total {σ : Type} (env : Env σ) (path : GoString) :
    ∀ (fuel : Nat) (pwd : GoString), pwd.length < fuel →
      ∃ r, getConfig.search env path fuel pwd = some r := by
  intro fuel
  induction fuel with
  | zero => intro pwd h; omega
  | succ fuel ih =>
    intro pwd h
    unfold getConfig.search
    by_cases h1 : pwd.length ≤ 1
    · exact ⟨_, if_pos h1⟩
    · rw [if_neg h1]
      simp only
      cases hopen : env.Open (env.Join pwd path) with
      | ok r => exact ⟨_, rfl⟩
      | error err =>
        simp only
        cases hne : IsNotExist err with
        | false => exact ⟨_, rfl⟩
        | true =>
          simp only [Bool.not_true, Bool.false_eq_true, if_false]
          cases hi : (LastIndexByte pwd Separator == -1) with
          | true => exact ⟨_, rfl⟩
          | false =>
            have hlt := LastIndexByte_lt hi
            have hlen : (pwd.take (LastIndexByte pwd Separator).toNat).length < fuel := by
              rw [List.length_take]; omega
            obtain ⟨r, hr⟩ := ih _ hlen
            simp only [Bool.false_eq_true, if_false]
            rw [hr]
            exact ⟨_, rfl⟩

/-- The function `getConfig` returns. -/
theorem getConfig_total {σ : Type} (env : Env σ) (path : GoString) :
    ∃ r, getConfig env path = some r := by
  unfold getConfig
  cases hab : IsAbs path with
  | true =>
    simp only [if_true]
    cases env.Open path with
    | ok r => exact ⟨_, rfl⟩
    | error err =>
      simp only
      cases IsNotExist err <;> exact ⟨_, rfl⟩
  | false =>
    simp only [Bool.false_eq_true, if_false]
    cases env.Getwd with
    | error err => exact ⟨_, rfl⟩
    | ok pwd =>
      simp only
      obtain ⟨r, hr⟩ := getConfig_search_total env path (pwd.length + 1) pwd (Nat.lt_succ_self _)
      rw [hr]
      exact ⟨_, rfl⟩

theorem searchDirs_of_short {pwd : GoString} (hr : pwd = [] ∨ IsAbs pwd = true)
    (h1 : pwd.length ≤ 1) : searchDirs pwd = [] := by
  match pwd, hr, h1 with
  | [], _, _ => decide
  | [c], hr, _ =>
    rcases hr with hr | hr
    · cases hr
    · have hc : c = Separator := by simpa [IsAbs] using hr
      subst hc
      decide
  | _ :: _ :: _, _, h1 => simp at h1

theorem searchDirs_of_long {pwd : GoString} (hr : pwd = [] ∨ IsAbs pwd = true)
    (h1 : ¬ pwd.length ≤ 1) :
    (LastIndexByte pwd Separator == -1) = false ∧
      searchDirs pwd = pwd :: searchDirs (pwd.take (LastIndexByte pwd Separator).toNat) := by
  match pwd, hr, h1 with
  | [], _, h1 => simp at h1
  | [_], _, h1 => simp at h1
  | c :: b :: t, hr, _ =>
    rcases hr with hr | hr
    · cases hr
    · have hc : c = Separator := by simpa [IsAbs] using hr
      subst hc
      have hm : Separator ∈ Separator :: b :: t := List.mem_cons_self _ _
      have hcut := parentDir_eq_cut (Separator :: b :: t)
      cases hi : (LastIndexByte (Separator :: b :: t) Separator == -1) with
      | true =>
        obtain ⟨a, rest, hs, hrest⟩ := exists_last_split Separator _ hm
        rw [hs, LastIndexByte_of_split a rest _ hrest] at hi
        have : ¬ ((a.length : Int) = -1) := by omega
        simp [this] at hi
      | false =>
        refine ⟨rfl, ?_⟩
        rw [hi] at hcut
        simp only [Bool.false_eq_true, if_false] at hcut
        unfold searchDirs
        rw [ancestors_eq (Separator :: b :: t), hcut]
        simp [isRoot]

theorem rooted_take {pwd : GoString} (hr : pwd = [] ∨ IsAbs pwd = true) (n : Nat) :
    pwd.take n = [] ∨ IsAbs (pwd.take n) = true := by
  rcases hr with hr | hr
  · subst hr; left; simp
  · cases pwd with
    | nil => left; simp
    | cons c t =>
      cases n with
      | zero => left; rfl
      | succ n => right; simpa [IsAbs] using hr

/-- On a rooted working directory the loop of `getConfig` is the search in the
directories `searchDirs`. -/
theorem getConfig_search_eq {σ : Type} (env : Env σ) (path : GoString) :
    ∀ (fuel : Nat) (pwd : GoString), (pwd = [] ∨ IsAbs pwd = true) → pwd.length < fuel →
      getConfig.search env path fuel pwd = some (searchIn env path (searchDirs pwd)) := by
  intro fuel
  induction fuel with
  | zero => intro pwd _ h; omega
  | succ fuel ih =>
    intro pwd hr h
    unfold getConfig.search
    by_cases h1 : pwd.length ≤ 1
    · rw [if_pos h1, searchDirs_of_short hr h1]
      rfl
    · obtain ⟨hi, hdirs⟩ := searchDirs_of_long hr h1
      rw [if_neg h1, hdirs]
      simp only [searchIn]
      cases hopen : env.Open (env.Join pwd path) with
      | ok r => rfl
      | error err =>
        simp only
        cases hne : IsNotExist err with
        | false => rfl
        | true =>
          have hlt := LastIndexByte_lt hi
          have hlen : (pwd.take (LastIndexByte pwd Separator).toNat).length < fuel := by
            rw [List.length_take]; omega
          simp only [Bool.not_true, Bool.false_eq_true, if_false, hi, if_true]
          rw [ih _ (rooted_take hr _) hlen]
          rfl

theorem getConfig_relative {σ : Type} (env : Env σ) (p d : GoString)
    (hrel : IsAbs p = false) (hwd : env.Getwd = .ok d) (habs : IsAbs d = true) :
    getConfig env p
      = some ((searchIn env p (searchDirs d)).1, .getwd :: (searchIn env p (searchDirs d)).2) := by
  unfold getConfig
  rw [hrel, hwd]
  simp only [Bool.false_eq_true, if_false]
  rw [getConfig_search_eq env p (d.length + 1) d (Or.inr habs) (Nat.lt_succ_self _)]
  rfl

theorem searchIn_opened {σ : Type} (env : Env σ) (p : GoString)
    (hfs : ∀ q err, env.Open q = .error err → IsNotExist err = true) :
    ∀ dirs : List GoString,
      opened (searchIn env p dirs).2
        = (upToFirst (fun a => holds env (env.Join a p)) dirs).map (fun a => env.Join a p) := by
  intro dirs
  induction dirs with
  | nil => rfl
  | cons a dirs ih =>
    simp only [searchIn, upToFirst, holds]
    cases hopen : env.Open (env.Join a p) with
    | ok r => simp [opened]
    | error err =>
      simp only [hfs _ _ hopen, if_true, Bool.false_eq_true, if_false, opened, List.map_cons]
      rw [ih]
      rfl

theorem searchIn_found {σ : Type} (env : Env σ) (p : GoString)
    (hfs : ∀ q err, env.Open q = .error err → IsNotExist err = true) :
    ∀ (dirs : List GoString) (a : GoString),
      dirs.find? (fun a => holds env (env.Join a p)) = some a →
        ∃ r, env.Open (env.Join a p) = .ok r ∧
          (searchIn env p dirs).1 = .ok ⟨env.Join a p, r⟩ := by
  intro dirs
  induction dirs with
  | nil => intro a h; cases h
  | cons b dirs ih =>
    intro a h
    simp only [List.find?, holds] at h
    simp only [searchIn]
    cases hopen : env.Open (env.Join b p) with
    | ok r =>
      rw [hopen] at h
      simp only [Option.some.injEq] at h
      subst h
      exact ⟨r, hopen, rfl⟩
    | error err =>
      rw [hopen] at h
      simp only [hfs _ _ hopen, if_true]
      exact ih a h

theorem searchIn_none {σ : Type} (env : Env σ) (p : GoString)
    (hfs : ∀ q err, env.Open q = .error err → IsNotExist err = true) :
    ∀ (dirs : List GoString), (∀ a ∈ dirs, holds env (env.Join a p) = false) →
      (searchIn env p dirs).1 = .error (notExistError p) ∧
      upToFirst (fun a => holds env (env.Join a p)) dirs = dirs := by
  intro dirs
  induction dirs with
  | nil => intro _; exact ⟨rfl, rfl⟩
  | cons b dirs ih =>
    intro h
    have hb := h b (List.mem_cons_self _ _)
    have ht := ih (fun a ha => h a (List.mem_cons_of_mem _ ha))
    simp only [searchIn, upToFirst, hb, Bool.false_eq_true, if_false]
    simp only [holds] at hb
    cases hopen : env.Open (env.Join b p) with
    | ok r => rw [hopen] at hb; cases hb
    | error err =>
      simp only [hfs _ _ hopen, if_true]
      exact ⟨ht.1, by rw [ht.2]⟩

/-- C6. For a relative path `p`, a rooted working directory `d` and a
filesystem where each open succeeds or reports not-exist, `getConfig` returns,
having asked for the working directory once; the paths it opens are
`Join(a, p)` for `a` running through `d` and its successive parents (each the
previous one cut at its last separator), nearest first, the root never among
them, up to and including the first that holds the file; it returns the file
of that first probe; and it fails with the not-found error exactly when none
of these directories holds the file, in which case it has probed every one. -/
theorem getConfig_relative_search {σ : Type} (env : Env σ) (p d : GoString)
    (hrel : IsAbs p = false) (hwd : env.Getwd = .ok d) (habs : IsAbs d = true)
    (hfs : ∀ q err, env.Open q = .error err → IsNotExist err = true) :
    ∃ res evs, getConfig env p = some (res, evs)
      ∧ opened evs
          = (upToFirst (fun a => holds env (env.Join a p)) (searchDirs d)).map
              (fun a => env.Join a p)
      ∧ searchDirs d = (ancestors d).filter (fun a => !isRoot a)
      ∧ (∀ a, (searchDirs d).find? (fun a => holds env (env.Join a p)) = some a →
            ∃ r, env.Open (env.Join a p) = .ok r ∧ res = .ok ⟨env.Join a p, r⟩)
      ∧ (res = .error (notExistError p)
            ↔ ∀ a ∈ searchDirs d, holds env (env.Join a p) = false)
      ∧ ((∀ a ∈ searchDirs d, holds env (env.Join a p) = false) →
            opened evs = (searchDirs d).map (fun a => env.Join a p)) := by
  refine ⟨_, _, getConfig_relative env p d hrel hwd habs, ?_, rfl, ?_, ?_, ?_⟩
  · exact searchIn_opened env p hfs _
  · exact searchIn_found env p hfs _
  · constructor
    · intro hres a ha
      cases hf : (searchDirs d).find? (fun a => holds env (env.Join a p)) with
      | none => exact by simpa using List.find?_eq_none.mp hf a ha
      | some b =>
        obtain ⟨r, _, hb⟩ := searchIn_found env p hfs _ b hf
        rw [hb] at hres
        cases hres
    · intro h
      exact (searchIn_none env p hfs _ h).1
  · intro h
    show opened (searchIn env p (searchDirs d)).2 = _
    rw [searchIn_opened env p hfs, (searchIn_none env p hfs _ h).2]

/-- C6 at `conf/conf.json` searched from `/srv/app` when only
`/srv/conf/conf.json` exists. -/
theorem getConfig_relative_search_witness :
    ∃ res evs,
      getConfig (demoEnv [(str "/srv/conf/conf.json", str "debug")] []) (str "conf/conf.json")
        = some (res, evs)
      ∧ opened evs = [str "/srv/app/conf/conf.json", str "/srv/conf/conf.json"]
      ∧ res = .ok ⟨str "/srv/conf/conf.json", ⟨str "debug", none⟩⟩ := by
  obtain ⟨res, evs, h, hop, _, hfound, _, _⟩ :=
    getConfig_relative_search (demoEnv [(str "/srv/conf/conf.json", str "debug")] [])
      (str "conf/conf.json") (str "/srv/app") (by decide) rfl (by decide)
      (by
        intro q err hq
        simp only [demoEnv, demoOpen] at hq
        split at hq
        · cases hq
        · cases hq; rfl)
  refine ⟨res, evs, h, ?_, ?_⟩
  · rw [hop]; decide
  · obtain ⟨r, hr, hres⟩ := hfound (str "/srv") (by decide)
    rw [hres]
    have : r = ⟨str "debug", none⟩ := by
      have : (demoEnv [(str "/srv/conf/conf.json", str "debug")] []).Open
          ((demoEnv [(str "/srv/conf/conf.json", str "debug")] []).Join (str "/srv")
            (str "conf/conf.json")) = .ok ⟨str "debug", none⟩ := rfl
      rw [this] at hr
      cases hr
      rfl
    rw [this]
    rfl

/-! ## Suffixes -/

theorem HasSuffix_iff (s suffix : GoString) : HasSuffix s suffix = true ↔ suffix <:+ s := by
  unfold HasSuffix
  rw [List.suffix_iff_eq_drop]
  constructor
  · intro h
    simp only [Bool.and_eq_true, decide_eq_true_eq, beq_iff_eq] at h
    exact h.2.symm
  · intro h
    simp only [Bool.and_eq_true, decide_eq_true_eq, beq_iff_eq]
    refine ⟨?_, h.symm⟩
    have := congrArg List.length h
    rw [List.length_drop] at this
    omega

theorem HasSuffix_excl {path s t : GoString} (hs : HasSuffix path s = true)
    (ht : HasSuffix path t = true) (hlen : s.length ≤ t.length) : HasSuffix t s = true := by
  rw [HasSuffix_iff] at *
  exact List.suffix_of_suffix_length_le hs ht hlen

/-- The selection of the second pass in terms of `strings.HasSuffix`. -/
theorem secondPassLoaders_cases (path : GoString) :
    (HasSuffix path (str "toml") = true ↔
        secondPassLoaders path = [.TOML { Path := path, Reader := none }, .Flag zeroFlagLoader])
    ∧ (HasSuffix path (str "json") = true ↔
        secondPassLoaders path = [.JSON { Path := path, Reader := none }, .Flag zeroFlagLoader])
    ∧ ((HasSuffix path (str "yml") = true ∨ HasSuffix path (str "yaml") = true) ↔
        secondPassLoaders path = [.YAML { Path := path, Reader := none }, .Flag zeroFlagLoader])
    ∧ ((¬ HasSuffix path (str "toml") = true ∧ ¬ HasSuffix path (str "json") = true
          ∧ ¬ HasSuffix path (str "yml") = true ∧ ¬ HasSuffix path (str "yaml") = true) ↔
        secondPassLoaders path = [.Flag zeroFlagLoader]) := by
  have e1 : HasSuffix path (str "toml") = true → HasSuffix path (str "json") = true → False :=
    fun h1 h2 => absurd (HasSuffix_excl h1 h2 (by decide)) (by decide)
  have e2 : HasSuffix path (str "toml") = true → HasSuffix path (str "yml") = true → False :=
    fun h1 h2 => absurd (HasSuffix_excl h2 h1 (by decide)) (by decide)
  have e3 : HasSuffix path (str "toml") = true → HasSuffix path (str "yaml") = true → False :=
    fun h1 h2 => absurd (HasSuffix_excl h1 h2 (by decide)) (by decide)
  have e4 : HasSuffix path (str "json") = true → HasSuffix path (str "yml") = true → False :=
    fun h1 h2 => absurd (HasSuffix_excl h2 h1 (by decide)) (by decide)
  have e5 : HasSuffix path (str "json") = true → HasSuffix path (str "yaml") = true → False :=
    fun h1 h2 => absurd (HasSuffix_excl h1 h2 (by decide)) (by decide)
  unfold secondPassLoaders zeroFlagLoader
  cases ht : HasSuffix path (str "toml") <;> cases hj : HasSuffix path (str "json") <;>
    cases hy : HasSuffix path (str "yml") <;> cases hY : HasSuffix path (str "yaml") <;>
    simp [ht, hj, hy, hY] at e1 e2 e3 e4 e5 ⊢

/-- C5 (amended). The loaders of the second pass, for every path: the TOML
loader is selected exactly when the path ends with `toml`, the JSON loader
exactly when it ends with `json`, the YAML loader exactly when it ends with
`yml` or `yaml` (no dot is asked for), and no file loader otherwise; a selected
file loader is the only one, has the explicit path as its `Path`, and is
followed by exactly one flag loader, `&FlagLoader{}`. -/
theorem secondPassLoaders_selection (path : GoString) :
    (str "toml" <:+ path ↔
        secondPassLoaders path = [.TOML { Path := path, Reader := none }, .Flag zeroFlagLoader])
    ∧ (str "json" <:+ path ↔
        secondPassLoaders path = [.JSON { Path := path, Reader := none }, .Flag zeroFlagLoader])
    ∧ ((str "yml" <:+ path ∨ str "yaml" <:+ path) ↔
        secondPassLoaders path = [.YAML { Path := path, Reader := none }, .Flag zeroFlagLoader])
    ∧ ((¬ str "toml" <:+ path ∧ ¬ str "json" <:+ path ∧ ¬ str "yml" <:+ path
          ∧ ¬ str "yaml" <:+ path) ↔
        secondPassLoaders path = [.Flag zeroFlagLoader]) := by
  simp only [← HasSuffix_iff]
  exact secondPassLoaders_cases path

/-- C5 as stated does not hold: the path `/etc/apptoml` does not end with
`.toml`, yet the second pass selects the TOML loader for it. -/
theorem secondPassLoaders_no_dot_needed :
    ¬ (str ".toml" <:+ str "/etc/apptoml")
    ∧ secondPassLoaders (str "/etc/apptoml")
        = [.TOML { Path := str "/etc/apptoml", Reader := none }, .Flag zeroFlagLoader] := by
  constructor
  · rw [← HasSuffix_iff]; decide
  · decide

/-! ## getConfig on an absolute path -/

/-- C7. For an absolute path `getConfig` returns after opening exactly that
path: it does not ask for the working directory, its result is the same in
every environment that agrees on what opening this one path gives (whatever
the working directory, the other files and `Join` are), a path that does not
exist gives the error with no further probe, and a path that opens gives the
file. -/
theorem getConfig_absolute {σ : Type} (env env' : Env σ) (path : GoString)
    (habs : IsAbs path = true) (hsame : env'.Open path = env.Open path) :
    ∃ res evs, getConfig env path = some (res, evs)
      ∧ opened evs = [path]
      ∧ Event.getwd ∉ evs
      ∧ getConfig env' path = getConfig env path
      ∧ (∀ err, env.Open path = .error err → IsNotExist err = true →
            res = .error (notExistError path) ∧ evs = [.osOpen path])
      ∧ (∀ r, env.Open path = .ok r → res = .ok ⟨path, r⟩) := by
  have hsame' : getConfig env' path = getConfig env path := by
    unfold getConfig
    rw [habs, hsame]
    rfl
  unfold getConfig at hsame' ⊢
  rw [habs] at hsame' ⊢
  simp only [if_true] at hsame' ⊢
  cases hopen : env.Open path with
  | ok r =>
    rw [hopen] at hsame'
    refine ⟨_, _, rfl, rfl, by simp, hsame', ?_, ?_⟩
    · intro err h; cases h
    · intro r' h; cases h; rfl
  | error err =>
    rw [hopen] at hsame'
    cases hne : IsNotExist err with
    | true =>
      simp only [hne, if_true] at hsame' ⊢
      refine ⟨_, _, rfl, rfl, by simp, hsame', ?_, ?_⟩
      · intro err' _ _; exact ⟨rfl, rfl⟩
      · intro r' h; cases h
    | false =>
      simp only [hne, Bool.false_eq_true, if_false] at hsame' ⊢
      refine ⟨_, _, rfl, rfl, by simp, hsame', ?_, ?_⟩
      · intro err' h h'; cases h; rw [hne] at h'; cases h'
      · intro r' h; cases h

/-- C7 at `/etc/app.toml`, which does not exist, while `/srv/app/etc/app.toml`
and `/srv/app/app.toml` do: only `/etc/app.toml` is opened and the call fails. -/
theorem getConfig_absolute_witness :
    IsAbs (str "/etc/app.toml") = true
    ∧ ∃ res evs,
        getConfig (demoEnv [(str "/srv/app/etc/app.toml", str "warn"),
            (str "/srv/app/app.toml", str "warn")] []) (str "/etc/app.toml") = some (res, evs)
        ∧ opened evs = [str "/etc/app.toml"]
        ∧ res = .error (notExistError (str "/etc/app.toml")) := by
  refine ⟨by decide, ?_⟩
  obtain ⟨res, evs, h, hop, _, _, hmiss, _⟩ :=
    getConfig_absolute
      (demoEnv [(str "/srv/app/etc/app.toml", str "warn"), (str "/srv/app/app.toml", str "warn")] [])
      (demoEnv [] []) (str "/etc/app.toml") (by decide) rfl
  exact ⟨res, evs, h, hop, (hmiss (.os 2 true) rfl rfl).1⟩

/-- C8, what the code does: when the file is not found, `getConfig` and the
three `Load` methods return a fresh error made by `fmt.Errorf`, which is not
the package variable `ErrFileNotFound`. Shown for the absolute path
`/etc/app.toml` and for the relative path `conf/conf.json` searched from
`/srv/app`, on a filesystem without files. -/
theorem not_found_error_is_not_ErrFileNotFound :
    getConfig (demoEnv [] []) (str "/etc/app.toml")
        = some (.error (.Errorf (str "file /etc/app.toml not exist")), [.osOpen (str "/etc/app.toml")])
    ∧ getConfig (demoEnv [] []) (str "conf/conf.json")
        = some (.error (.Errorf (str "file conf/conf.json not exist")),
            [.getwd, .osOpen (str "/srv/app/conf/conf.json"), .osOpen (str "/srv/conf/conf.json")])
    ∧ (TOMLLoader.Load (demoEnv [] []) { Path := str "/etc/app.toml", Reader := none } Conf.zero).map
          (fun o => o.err) = some (some (.Errorf (str "file /etc/app.toml not exist")))
    ∧ (JSONLoader.Load (demoEnv [] []) { Path := str "conf/conf.json", Reader := none } Conf.zero).map
          (fun o => o.err) = some (some (.Errorf (str "file conf/conf.json not exist")))
    ∧ (YAMLLoader.Load (demoEnv [] []) { Path := str "/etc/app.yml", Reader := none } Conf.zero).map
          (fun o => o.err) = some (some (.Errorf (str "file /etc/app.yml not exist")))
    ∧ Error.Errorf (str "file /etc/app.toml not exist") ≠ Error.ErrFileNotFound
    ∧ Error.Errorf (str "file conf/conf.json not exist") ≠ Error.ErrFileNotFound
    ∧ Error.Errorf (str "file /etc/app.yml not exist") ≠ Error.ErrFileNotFound := by
  refine ⟨rfl, rfl, by decide, by decide, by decide, by decide, by decide, by decide⟩

/-! ## What a `Load` call does -/

theorem getConfig_search_events {σ : Type} (env : Env σ) (path : GoString) :
    ∀ (fuel : Nat) (pwd : GoString) (r : Except Error File × List Event),
      getConfig.search env path fuel pwd = some r → ∀ ev ∈ r.2, ev.isFileIO = true := by
  intro fuel
  induction fuel with
  | zero => intro pwd r h; cases h
  | succ fuel ih =>
    intro pwd r h
    unfold getConfig.search at h
    by_cases h1 : pwd.length ≤ 1
    · rw [if_pos h1] at h
      cases h
      intro ev hev; cases hev
    · rw [if_neg h1] at h
      simp only at h
      cases hopen : env.Open (env.Join pwd path) with
      | ok f =>
        rw [hopen] at h
        cases h
        intro ev hev
        simp only [List.mem_cons, List.mem_singleton, List.not_mem_nil, or_false] at hev
        rcases hev with hev | hev <;> subst hev <;> rfl
      | error err =>
        rw [hopen] at h
        simp only at h
        cases hne : IsNotExist err with
        | false =>
          simp only [hne, Bool.not_false, if_true] at h
          cases h
          intro ev hev
          simp only [List.mem_singleton] at hev
          subst hev; rfl
        | true =>
          simp only [hne, Bool.not_true, Bool.false_eq_true, if_false] at h
          cases hi : (LastIndexByte pwd Separator == -1) with
          | true =>
            simp only [hi, if_true] at h
            cases h
            intro ev hev
            simp only [List.mem_singleton] at hev
            subst hev; rfl
          | false =>
            simp only [hi, Bool.false_eq_true, if_false] at h
            cases hrec : getConfig.search env path fuel
                (pwd.take (LastIndexByte pwd Separator).toNat) with
            | none => rw [hrec] at h; cases h
            | some r' =>
              rw [hrec] at h
              cases h
              intro ev hev
              simp only [List.mem_cons] at hev
              rcases hev with hev | hev
              · subst hev; rfl
              · exact ih _ r' hrec ev hev

theorem getConfig_events {σ : Type} (env : Env σ) (path : GoString)
    (r : Except Error File × List Event) (h : getConfig env path = some r) :
    ∀ ev ∈ r.2, ev.isFileIO = true := by
  unfold getConfig at h
  cases hab : IsAbs path with
  | true =>
    simp only [hab, if_true] at h
    cases hopen : env.Open path with
    | ok f =>
      rw [hopen] at h
      cases h
      intro ev hev
      simp only [List.mem_cons, List.mem_singleton, List.not_mem_nil, or_false] at hev
      rcases hev with hev | hev <;> subst hev <;> rfl
    | error err =>
      rw [hopen] at h
      simp only at h
      cases hne : IsNotExist err with
      | true =>
        simp only [hne, if_true] at h
        cases h
        intro ev hev
        simp only [List.mem_singleton] at hev
        subst hev; rfl
      | false =>
        simp only [hne, Bool.false_eq_true, if_false] at h
        cases h
        intro ev hev
        simp only [List.mem_cons, List.mem_singleton, List.not_mem_nil, or_false] at hev
        rcases hev with hev | hev <;> subst hev <;> rfl
  | false =>
    simp only [hab, Bool.false_eq_true, if_false] at h
    cases hwd : env.Getwd with
    | error err =>
      rw [hwd] at h
      cases h
      intro ev hev
      simp only [List.mem_singleton] at hev
      subst hev; rfl
    | ok pwd =>
      rw [hwd] at h
      simp only at h
      cases hrec : getConfig.search env path (pwd.length + 1) pwd with
      | none => rw [hrec] at h; cases h
      | some r' =>
        rw [hrec] at h
        cases h
        intro ev hev
        simp only [List.mem_cons] at hev
        rcases hev with hev | hev
        · subst hev; rfl
        · exact getConfig_search_events env path _ _ r' hrec ev hev

theorem readAllUnmarshal_events {σ : Type} (env : Env σ) (r : Reader) (s : σ) :
    ∀ ev ∈ (readAllUnmarshal env r s).events, ev.isFileIO = true := by
  unfold readAllUnmarshal
  cases r.readErr with
  | some err => intro ev hev; cases hev
  | none =>
    intro ev hev
    simp only [List.mem_singleton] at hev
    subst hev; rfl

/-- The three file loaders return, and all they do is file input. -/
theorem TOMLLoader_Load_spec {σ : Type} (env : Env σ) (t : TOMLLoader) (s : σ) :
    ∃ o, t.Load env s = some o ∧ ∀ ev ∈ o.events, ev.isFileIO = true := by
  unfold TOMLLoader.Load
  cases t.Reader with
  | some r =>
    refine ⟨_, rfl, ?_⟩
    intro ev hev
    simp only [List.mem_singleton] at hev
    subst hev; rfl
  | none =>
    simp only
    by_cases hp : t.Path ≠ []
    · rw [if_pos hp]
      obtain ⟨r, hr⟩ := getConfig_total env t.Path
      have hev := getConfig_events env t.Path r hr
      rw [hr]
      obtain ⟨res, evs⟩ := r
      cases res with
      | error err => exact ⟨_, rfl, hev⟩
      | ok file =>
        refine ⟨_, rfl, ?_⟩
        intro ev hmem
        simp only [List.mem_append, List.mem_cons, List.mem_singleton, List.not_mem_nil,
          or_false] at hmem
        rcases hmem with hmem | hmem | hmem
        · exact hev ev hmem
        · subst hmem; rfl
        · subst hmem; rfl
    · rw [if_neg hp]
      exact ⟨_, rfl, fun ev hev => by cases hev⟩

theorem JSONLoader_Load_spec {σ : Type} (env : Env σ) (j : JSONLoader) (s : σ) :
    ∃ o, j.Load env s = some o ∧ ∀ ev ∈ o.events, ev.isFileIO = true := by
  unfold JSONLoader.Load
  cases j.Reader with
  | some r =>
    refine ⟨_, rfl, ?_⟩
    intro ev hev
    simp only [List.mem_singleton] at hev
    subst hev; rfl
  | none =>
    simp only
    by_cases hp : j.Path ≠ []
    · rw [if_pos hp]
      obtain ⟨r, hr⟩ := getConfig_total env j.Path
      have hev := getConfig_events env j.Path r hr
      rw [hr]
      obtain ⟨res, evs⟩ := r
      cases res with
      | error err => exact ⟨_, rfl, hev⟩
      | ok file =>
        refine ⟨_, rfl, ?_⟩
        intro ev hmem
        simp only [List.mem_append, List.mem_cons, List.mem_singleton, List.not_mem_nil,
          or_false] at hmem
        rcases hmem with hmem | hmem | hmem
        · exact hev ev hmem
        · subst hmem; rfl
        · subst hmem; rfl
    · rw [if_neg hp]
      exact ⟨_, rfl, fun ev hev => by cases hev⟩

theorem YAMLLoader_Load_spec {σ : Type} (env : Env σ) (y : YAMLLoader) (s : σ) :
    ∃ o, y.Load env s = some o ∧ ∀ ev ∈ o.events, ev.isFileIO = true := by
  unfold YAMLLoader.Load
  cases y.Reader with
  | some r => exact ⟨_, rfl, readAllUnmarshal_events env r s⟩
  | none =>
    simp only
    by_cases hp : y.Path ≠ []
    · rw [if_pos hp]
      obtain ⟨r, hr⟩ := getConfig_total env y.Path
      have hev := getConfig_events env y.Path r hr
      rw [hr]
      obtain ⟨res, evs⟩ := r
      cases res with
      | error err => exact ⟨_, rfl, hev⟩
      | ok file =>
        refine ⟨_, rfl, ?_⟩
        intro ev hmem
        simp only [List.mem_append, List.mem_singleton] at hmem
        rcases hmem with (hmem | hmem) | hmem
        · exact hev ev hmem
        · exact readAllUnmarshal_events env file.reader s ev hmem
        · subst hmem; rfl
    · rw [if_neg hp]
      exact ⟨_, rfl, fun ev hev => by cases hev⟩

/-- Every `Load` call returns; its effects are the call itself followed by
file input only. -/
theorem Loader_Load_spec {σ : Type} (env : Env σ) (l : Loader) (s : σ) :
    ∃ o evs, l.Load env s = some o ∧ o.events = .load l :: evs
      ∧ ∀ ev ∈ evs, ev.isFileIO = true := by
  unfold Loader.Load
  cases l with
  | Tag => exact ⟨_, _, rfl, rfl, fun ev hev => by cases hev⟩
  | Environment e => exact ⟨_, _, rfl, rfl, fun ev hev => by cases hev⟩
  | Flag f => exact ⟨_, _, rfl, rfl, fun ev hev => by cases hev⟩
  | JSON j =>
    obtain ⟨o, ho, hev⟩ := JSONLoader_Load_spec env j s
    simp only [ho]
    exact ⟨_, _, rfl, rfl, hev⟩
  | YAML y =>
    obtain ⟨o, ho, hev⟩ := YAMLLoader_Load_spec env y s
    simp only [ho]
    exact ⟨_, _, rfl, rfl, hev⟩
  | TOML t =>
    obtain ⟨o, ho, hev⟩ := TOMLLoader_Load_spec env t s
    simp only [ho]
    exact ⟨_, _, rfl, rfl, hev⟩

theorem loads_append (a b : List Event) : loads (a ++ b) = loads a ++ loads b := by
  induction a with
  | nil => rfl
  | cons ev a ih => cases ev <;> simp [loads, ih]

theorem loads_fileIO : ∀ evs : List Event, (∀ ev ∈ evs, ev.isFileIO = true) → loads evs = [] := by
  intro evs
  induction evs with
  | nil => intro _; rfl
  | cons ev evs ih =>
    intro h
    have hev := h ev (List.mem_cons_self _ _)
    have ht := ih (fun e he => h e (List.mem_cons_of_mem _ he))
    cases ev <;> simp [loads, ht, Event.isFileIO] at hev ⊢

theorem validate_not_mem_fileIO (evs : List Event) (h : ∀ ev ∈ evs, ev.isFileIO = true) :
    Event.validate ∉ evs := by
  intro hm
  have := h _ hm
  simp [Event.isFileIO] at this

/-! ## The first pass -/

theorem bestEffort_cons {σ : Type} (env : Env σ) (l : Loader) (ls : List Loader) (s s' : σ)
    (evs : List Event) (h : bestEffort env (l :: ls) s = some (s', evs)) :
    ∃ o evs', l.Load env s = some o ∧ bestEffort env ls o.target = some (s', evs') := by
  unfold bestEffort at h
  cases ho : l.Load env s with
  | none => rw [ho] at h; cases h
  | some o =>
    rw [ho] at h
    simp only at h
    cases hr : bestEffort env ls o.target with
    | none => rw [hr] at h; cases h
    | some r =>
      obtain ⟨r1, r2⟩ := r
      rw [hr] at h
      cases h
      exact ⟨o, r2, rfl, hr⟩

/-- The best-effort loop returns, having called `Load` on every loader of the
list once, in order, whatever errors they return; it does not validate. -/
theorem bestEffort_spec {σ : Type} (env : Env σ) :
    ∀ (ls : List Loader) (s : σ), ∃ s' evs, bestEffort env ls s = some (s', evs)
      ∧ loads evs = ls ∧ Event.validate ∉ evs := by
  intro ls
  induction ls with
  | nil => intro s; exact ⟨s, [], rfl, rfl, by simp⟩
  | cons l ls ih =>
    intro s
    obtain ⟨o, evs, ho, hevs, hio⟩ := Loader_Load_spec env l s
    obtain ⟨s', evs', hr, hl, hv⟩ := ih o.target
    unfold bestEffort
    rw [ho]
    simp only [hr, Option.map_some']
    refine ⟨s', _, rfl, ?_, ?_⟩
    · rw [loads_append, hl, hevs]
      cases o.err with
      | none => simp [loads, loads_fileIO evs hio]
      | some err => simp [loads, loads_append, loads_fileIO evs hio]
    · have hvo : Event.validate ∉ evs := validate_not_mem_fileIO evs hio
      rw [hevs]
      cases o.err with
      | none => simp [hvo, hv]
      | some err => simp [hvo, hv]

theorem bestEffort_preserves {σ V : Type} (env : Env σ) (get : σ → V) :
    ∀ (ls : List Loader),
      (∀ l ∈ ls, ∀ s o, l.Load env s = some o → get o.target = get s) →
      ∀ (s s' : σ) (evs : List Event), bestEffort env ls s = some (s', evs) → get s' = get s := by
  intro ls
  induction ls with
  | nil =>
    intro _ s s' evs h
    cases h
    rfl
  | cons l ls ih =>
    intro hp s s' evs h
    obtain ⟨o, evs', ho, hr⟩ := bestEffort_cons env l ls s s' evs h
    rw [ih (fun l' hl' => hp l' (List.mem_cons_of_mem _ hl')) _ _ _ hr]
    exact hp l (List.mem_cons_self _ _) s o ho

/-- Last writer wins in the best-effort loop: what the earlier loaders of the
list did to the observed part of the target does not matter. -/
theorem bestEffort_last_writer {σ V : Type} (env : Env σ) (get : σ → V) (v : V)
    (l : Loader) (suf : List Loader)
    (hw : ∀ s o, l.Load env s = some o → get o.target = v)
    (hp : ∀ l' ∈ suf, ∀ s o, l'.Load env s = some o → get o.target = get s) :
    ∀ (pre : List Loader) (s s' : σ) (evs : List Event),
      bestEffort env (pre ++ l :: suf) s = some (s', evs) → get s' = v := by
  intro pre
  induction pre with
  | nil =>
    intro s s' evs h
    obtain ⟨o, evs', ho, hr⟩ := bestEffort_cons env l suf s s' evs h
    rw [bestEffort_preserves env get suf hp _ _ _ hr]
    exact hw s o ho
  | cons a pre ih =>
    intro s s' evs h
    obtain ⟨o, evs', _, hr⟩ := bestEffort_cons env a (pre ++ l :: suf) s s' evs h
    exact ih _ _ _ hr

theorem Loader_Load_Flag_target {σ : Type} (env : Env σ) (f : FlagLoader) (s : σ) (o : Outcome σ)
    (h : (Loader.Flag f).Load env s = some o) : o.target = (env.flagLoad f s).1 := by
  unfold Loader.Load at h
  cases h
  rfl

theorem Loader_Load_Environment_target {σ : Type} (env : Env σ) (e : EnvironmentLoader) (s : σ)
    (o : Outcome σ) (h : (Loader.Environment e).Load env s = some o) :
    o.target = (env.envLoad e s).1 := by
  unfold Loader.Load at h
  cases h
  rfl

/-- C1. The first pass of `LoadInTurn` returns for every behaviour of the
loaders, and has called `Load` on exactly the seven loaders, once each, in the
order Tag, JSON `conf/conf.json`, YAML `conf/conf.yml`, YAML `conf/conf.yaml`,
TOML `conf/conf.toml`, Environment, Flag, whatever errors they return. For every
observation `get` of the target (a field): a loader that leaves the value `v`
in it, when the loaders after it leave it alone, decides it, whatever the
loaders before it wrote. In particular the flag loader wins over all, the
environment loader wins over the files, and `conf/conf.toml` wins over
`conf/conf.json`. -/
theorem firstPass_order_last_wins {σ V : Type} (env : Env σ) (conf : σ) :
    ∃ conf1 evs, firstPass env conf = some (conf1, evs)
      ∧ loads evs =
          [ .Tag,
            .JSON { Path := str "conf/conf.json", Reader := none },
            .YAML { Path := str "conf/conf.yml", Reader := none },
            .YAML { Path := str "conf/conf.yaml", Reader := none },
            .TOML { Path := str "conf/conf.toml", Reader := none },
            .Environment { CamelCase := true },
            .Flag { Prefix := [], Flatten := false, CamelCase := true,
                    ErrorHandling := .ExitOnError } ]
      ∧ (∀ (get : σ → V) (v : V) (pre suf : List Loader) (l : Loader),
            firstPassLoaders = pre ++ l :: suf →
            (∀ s o, l.Load env s = some o → get o.target = v) →
            (∀ l' ∈ suf, ∀ s o, l'.Load env s = some o → get o.target = get s) →
            get conf1 = v)
      ∧ (∀ (get : σ → V) (v : V),
            (∀ s, get (env.flagLoad flagLoader s).1 = v) → get conf1 = v)
      ∧ (∀ (get : σ → V) (v : V),
            (∀ s, get (env.envLoad { CamelCase := true } s).1 = v) →
            (∀ s, get (env.flagLoad flagLoader s).1 = get s) → get conf1 = v)
      ∧ (∀ (get : σ → V) (v : V),
            (∀ s o, (Loader.TOML { Path := str "conf/conf.toml", Reader := none }).Load env s
                = some o → get o.target = v) →
            (∀ s, get (env.envLoad { CamelCase := true } s).1 = get s) →
            (∀ s, get (env.flagLoad flagLoader s).1 = get s) → get conf1 = v) := by
  obtain ⟨conf1, evs, h, hl, _⟩ := bestEffort_spec env firstPassLoaders conf
  have hgen : ∀ (get : σ → V) (v : V) (pre suf : List Loader) (l : Loader),
      firstPassLoaders = pre ++ l :: suf →
      (∀ s o, l.Load env s = some o → get o.target = v) →
      (∀ l' ∈ suf, ∀ s o, l'.Load env s = some o → get o.target = get s) →
      get conf1 = v := by
    intro get v pre suf l hsplit hw hp
    have h' := h
    rw [hsplit] at h'
    exact bestEffort_last_writer env get v l suf hw hp pre conf conf1 evs h'
  refine ⟨conf1, evs, h, hl, hgen, ?_, ?_, ?_⟩
  · intro get v hf
    refine hgen get v
      [.Tag, .JSON { Path := str "conf/conf.json", Reader := none },
      .YAML { Path := str "conf/conf.yml", Reader := none },
      .YAML { Path := str "conf/conf.yaml", Reader := none },
      .TOML { Path := str "conf/conf.toml", Reader := none },
      .Environment { CamelCase := true }]
      [] (.Flag flagLoader) rfl ?_ ?_
    · intro s o ho
      rw [Loader_Load_Flag_target env _ s o ho]
      exact hf s
    · intro l' hl'; cases hl'
  · intro get v he hf
    refine hgen get v
      [.Tag, .JSON { Path := str "conf/conf.json", Reader := none },
      .YAML { Path := str "conf/conf.yml", Reader := none },
      .YAML { Path := str "conf/conf.yaml", Reader := none },
      .TOML { Path := str "conf/conf.toml", Reader := none }]
      [.Flag flagLoader] (.Environment { CamelCase := true }) rfl ?_ ?_
    · intro s o ho
      rw [Loader_Load_Environment_target env _ s o ho]
      exact he s
    · intro l' hl' s o ho
      simp only [List.mem_singleton] at hl'
      subst hl'
      rw [Loader_Load_Flag_target env _ s o ho]
      exact hf s
  · intro get v ht he hf
    refine hgen get v
      [.Tag, .JSON { Path := str "conf/conf.json", Reader := none },
      .YAML { Path := str "conf/conf.yml", Reader := none },
      .YAML { Path := str "conf/conf.yaml", Reader := none }]
      [.Environment { CamelCase := true }, .Flag flagLoader]
      (.TOML { Path := str "conf/conf.toml", Reader := none }) rfl ht ?_
    intro l' hl' s o ho
    simp only [List.mem_cons, List.mem_singleton, List.not_mem_nil, or_false] at hl'
    rcases hl' with hl' | hl'
    · subst hl'
      rw [Loader_Load_Environment_target env _ s o ho]
      exact he s
    · subst hl'
      rw [Loader_Load_Flag_target env _ s o ho]
      exact hf s

/-- C1 with `conf/conf.json` holding `warn` and the command line
`-log-level=debug`: after the first pass `LogLevel` is the flag's `debug`. -/
theorem firstPass_order_last_wins_witness :
    ∃ conf1 evs,
      firstPass (demoEnv [(str "/srv/app/conf/conf.json", str "warn")]
        [(str "log-level", str "debug")]) Conf.zero = some (conf1, evs)
      ∧ conf1.LogLevel = str "debug" := by
  obtain ⟨conf1, evs, h, _, _, hflag, _, _⟩ :=
    firstPass_order_last_wins (V := GoString)
      (demoEnv [(str "/srv/app/conf/conf.json", str "warn")] [(str "log-level", str "debug")])
      Conf.zero
  refine ⟨conf1, evs, h, hflag Conf.LogLevel (str "debug") ?_⟩
  intro s
  rfl

/-! ## LoadInTurn -/

/-- C2. For every behaviour of the loaders, the decoders and the filesystem
(so for every error any of the seven first-pass loaders returns) the first pass
returns, all seven loaders having been called; and when `GetConf()` is empty
after it, `LoadInTurn` returns exactly what `Validate` returns on the target
left by the first pass, nil when validation passes. -/
theorem LoadInTurn_first_pass_errors_dropped {σ : Type} (env : Env σ) (conf : σ) :
    ∃ conf1 evs, firstPass env conf = some (conf1, evs)
      ∧ loads evs = firstPassLoaders
      ∧ (env.GetConf conf1 = [] →
            LoadInTurn env conf = some ⟨conf1, env.Validate conf1, evs ++ [.validate]⟩)
      ∧ (env.GetConf conf1 = [] → env.Validate conf1 = none →
            ∃ o, LoadInTurn env conf = some o ∧ o.err = none) := by
  obtain ⟨conf1, evs, h, hl, _⟩ := bestEffort_spec env firstPassLoaders conf
  have hret : env.GetConf conf1 = [] →
      LoadInTurn env conf = some ⟨conf1, env.Validate conf1, evs ++ [.validate]⟩ := by
    intro hc
    unfold LoadInTurn firstPass
    rw [h]
    simp only [hc, ne_eq, not_true_eq_false, if_false]
  refine ⟨conf1, evs, h, hl, hret, ?_⟩
  intro hc hv
  exact ⟨_, hret hc, hv⟩

/-- C2 with no file, no environment variable and no flag: the four file
loaders fail, their four errors are logged, and `LoadInTurn` returns nil. -/
theorem LoadInTurn_first_pass_errors_dropped_witness :
    warned (((firstPass (demoEnv [] []) Conf.zero).map (fun r => r.2)).getD [])
        = [ notExistError (str "conf/conf.json"), notExistError (str "conf/conf.yml"),
            notExistError (str "conf/conf.yaml"), notExistError (str "conf/conf.toml") ]
    ∧ ∃ o, LoadInTurn (demoEnv [] []) Conf.zero = some o ∧ o.err = none := by
  obtain ⟨conf1, evs, h, _, _, hnil⟩ :=
    LoadInTurn_first_pass_errors_dropped (demoEnv [] []) Conf.zero
  have hc : conf1 = ⟨[], str "aclogs", str "info"⟩ := by
    have h' : firstPass (demoEnv [] []) Conf.zero
        = some ((⟨[], str "aclogs", str "info"⟩ : Conf),
            ((firstPass (demoEnv [] []) Conf.zero).map (fun r => r.2)).getD []) := by decide
    rw [h] at h'
    cases h'
    rfl
  refine ⟨by decide, hnil ?_ rfl⟩
  rw [hc]
  rfl

theorem LoadInTurn_second_pass_error {σ : Type} (env : Env σ) (conf conf1 : σ)
    (evs1 : List Event) (L : Loader) (rest : List Loader) (o : Outcome σ) (e : Error)
    (h1 : firstPass env conf = some (conf1, evs1)) (hc : env.GetConf conf1 ≠ [])
    (hsel : secondPassLoaders (env.GetConf conf1) = L :: rest)
    (ho : L.Load env conf1 = some o) (he : o.err = some e) :
    LoadInTurn env conf = some ⟨o.target, some e, evs1 ++ o.events⟩ := by
  unfold LoadInTurn
  rw [h1]
  simp only [hc, ne_eq, not_false_eq_true, if_true, hsel, MultiLoader.Load, ho, he]

theorem Loader_Load_file_error {σ : Type} (env : Env σ) (path : GoString) (s : σ) (e : Error)
    (gevs : List Event) (hp : path ≠ []) (hg : getConfig env path = some (.error e, gevs)) :
    (Loader.TOML { Path := path, Reader := none }).Load env s
        = some ⟨s, some e, .load (.TOML { Path := path, Reader := none }) :: gevs⟩
    ∧ (Loader.JSON { Path := path, Reader := none }).Load env s
        = some ⟨s, some e, .load (.JSON { Path := path, Reader := none }) :: gevs⟩
    ∧ (Loader.YAML { Path := path, Reader := none }).Load env s
        = some ⟨s, some e, .load (.YAML { Path := path, Reader := none }) :: gevs⟩ := by
  refine ⟨?_, ?_, ?_⟩
  · simp only [Loader.Load, TOMLLoader.Load, hp, ne_eq, not_false_eq_true, if_true, hg,
      Option.map_some']
  · simp only [Loader.Load, JSONLoader.Load, hp, ne_eq, not_false_eq_true, if_true, hg,
      Option.map_some']
  · simp only [Loader.Load, YAMLLoader.Load, hp, ne_eq, not_false_eq_true, if_true, hg,
      Option.map_some']

/-- The three branches of the second pass that build a file loader. Let `path`
be the non-empty `GetConf()` after the first pass. If a file loader is selected
for it and its `Load` fails, `LoadInTurn` returns that error, with the target
as that loader left it, and neither the flag loader of the second pass nor the
validator runs. In particular, when `path` ends with `toml`, `json`, `yml` or
`yaml` and `getConfig` does not find or cannot open the file, the error of
`getConfig` is what `LoadInTurn` returns. -/
theorem LoadInTurn_explicit_file_error {σ : Type} (env : Env σ) (conf : σ) :
    ∃ conf1 evs1, firstPass env conf = some (conf1, evs1)
      ∧ (∀ (L : Loader) (o : Outcome σ) (e : Error),
            env.GetConf conf1 ≠ [] →
            secondPassLoaders (env.GetConf conf1) = [L, .Flag zeroFlagLoader] →
            L.Load env conf1 = some o → o.err = some e →
            LoadInTurn env conf = some ⟨o.target, some e, evs1 ++ o.events⟩
              ∧ loads (evs1 ++ o.events) = firstPassLoaders ++ [L]
              ∧ Event.validate ∉ evs1 ++ o.events)
      ∧ (∀ (e : Error) (gevs : List Event),
            env.GetConf conf1 ≠ [] →
            (str "toml" <:+ env.GetConf conf1 ∨ str "json" <:+ env.GetConf conf1
              ∨ str "yml" <:+ env.GetConf conf1 ∨ str "yaml" <:+ env.GetConf conf1) →
            getConfig env (env.GetConf conf1) = some (.error e, gevs) →
            ∃ o, LoadInTurn env conf = some o ∧ o.err = some e ∧ o.target = conf1
              ∧ Event.validate ∉ o.events) := by
  obtain ⟨conf1, evs1, h1, hl1, hv1⟩ := bestEffort_spec env firstPassLoaders conf
  have hmain : ∀ (L : Loader) (o : Outcome σ) (e : Error),
      env.GetConf conf1 ≠ [] →
      secondPassLoaders (env.GetConf conf1) = [L, .Flag zeroFlagLoader] →
      L.Load env conf1 = some o → o.err = some e →
      LoadInTurn env conf = some ⟨o.target, some e, evs1 ++ o.events⟩
        ∧ loads (evs1 ++ o.events) = firstPassLoaders ++ [L]
        ∧ Event.validate ∉ evs1 ++ o.events := by
    intro L o e hc hsel ho he
    obtain ⟨o', evs, ho', hevs, hio⟩ := Loader_Load_spec env L conf1
    rw [ho] at ho'
    cases ho'
    refine ⟨LoadInTurn_second_pass_error env conf conf1 evs1 L _ o e h1 hc hsel ho he, ?_, ?_⟩
    · rw [loads_append, hl1, hevs]
      simp [loads, loads_fileIO evs hio]
    · rw [hevs]
      have := validate_not_mem_fileIO evs hio
      simp [hv1, this]
  refine ⟨conf1, evs1, h1, hmain, ?_⟩
  intro e gevs hc hsuf hg
  obtain ⟨hT, hJ, hY⟩ := Loader_Load_file_error env (env.GetConf conf1) conf1 e gevs hc hg
  obtain ⟨sT, sJ, sY, _⟩ := secondPassLoaders_cases (env.GetConf conf1)
  simp only [← HasSuffix_iff] at hsuf
  rcases hsuf with hs | hs | hs | hs
  · obtain ⟨hr, _, hv⟩ := hmain _ _ e hc (sT.mp hs) hT rfl
    exact ⟨_, hr, rfl, rfl, hv⟩
  · obtain ⟨hr, _, hv⟩ := hmain _ _ e hc (sJ.mp hs) hJ rfl
    exact ⟨_, hr, rfl, rfl, hv⟩
  · obtain ⟨hr, _, hv⟩ := hmain _ _ e hc (sY.mp (Or.inl hs)) hY rfl
    exact ⟨_, hr, rfl, rfl, hv⟩
  · obtain ⟨hr, _, hv⟩ := hmain _ _ e hc (sY.mp (Or.inr hs)) hY rfl
    exact ⟨_, hr, rfl, rfl, hv⟩

/-- The flag `-conf=/etc/app.toml` naming a file that does not exist:
`LoadInTurn` returns the error of `getConfig`. -/
theorem LoadInTurn_explicit_file_error_witness :
    ∃ o, LoadInTurn (demoEnv [] [(str "conf", str "/etc/app.toml")]) Conf.zero = some o
      ∧ o.err = some (notExistError (str "/etc/app.toml")) := by
  obtain ⟨conf1, evs1, h1, _, hmiss⟩ :=
    LoadInTurn_explicit_file_error (demoEnv [] [(str "conf", str "/etc/app.toml")]) Conf.zero
  have hc : conf1 = ⟨str "/etc/app.toml", str "aclogs", str "info"⟩ := by
    have h' : firstPass (demoEnv [] [(str "conf", str "/etc/app.toml")]) Conf.zero
        = some ((⟨str "/etc/app.toml", str "aclogs", str "info"⟩ : Conf),
            ((firstPass (demoEnv [] [(str "conf", str "/etc/app.toml")]) Conf.zero).map
              (fun r => r.2)).getD []) := by decide
    rw [h1] at h'
    cases h'
    rfl
  subst hc
  obtain ⟨o, ho, he, _, _⟩ :=
    hmiss (notExistError (str "/etc/app.toml")) [.osOpen (str "/etc/app.toml")]
      (by decide) (Or.inl ((HasSuffix_iff _ _).mp (by decide))) rfl
  exact ⟨o, ho, he⟩

/-- C3, what the code does. The comment on `Confer` says "if not blank, load
this configuration file", and a missing file named `/etc/app.toml` does give an
error; but the suffix chain of `LoadInTurn` has no branch for any other
suffix. With the command line `-conf=/etc/app.ini`, `/etc/app.ini` not
existing, the second pass consists of the flag loader alone, the named file is
never opened and `LoadInTurn` returns nil. -/
theorem LoadInTurn_missing_explicit_file_without_error :
    (demoEnv [] [(str "conf", str "/etc/app.ini")]).Open (str "/etc/app.ini")
        = .error (.os 2 true)
    ∧ secondPassLoaders (str "/etc/app.ini") = [.Flag zeroFlagLoader]
    ∧ (LoadInTurn (demoEnv [] [(str "conf", str "/etc/app.toml")]) Conf.zero).map
        (fun o => o.err) = some (some (notExistError (str "/etc/app.toml")))
    ∧ ∃ o, LoadInTurn (demoEnv [] [(str "conf", str "/etc/app.ini")]) Conf.zero = some o
        ∧ (demoEnv [] [(str "conf", str "/etc/app.ini")]).GetConf o.target = str "/etc/app.ini"
        ∧ o.err = none
        ∧ str "/etc/app.ini" ∉ opened o.events
        ∧ loads o.events = firstPassLoaders ++ [.Flag zeroFlagLoader] := by
  refine ⟨rfl, by decide, by decide, ?_⟩
  cases h : LoadInTurn (demoEnv [] [(str "conf", str "/etc/app.ini")]) Conf.zero with
  | none => revert h; decide
  | some o =>
    refine ⟨o, rfl, ?_⟩
    have h' : (LoadInTurn (demoEnv [] [(str "conf", str "/etc/app.ini")]) Conf.zero).map
        (fun o => ((demoEnv [] [(str "conf", str "/etc/app.ini")]).GetConf o.target, o.err,
          decide (str "/etc/app.ini" ∈ opened o.events),
          decide (loads o.events = firstPassLoaders ++ [.Flag zeroFlagLoader])))
        = some (str "/etc/app.ini", none, false, true) := by decide
    rw [h] at h'
    simp only [Option.map_some', Option.some.injEq, Prod.mk.injEq, decide_eq_false_iff_not,
      decide_eq_true_eq] at h'
    exact h'

/-- C4, what the code does. The flag loader of the second pass is
`&FlagLoader{}`, not the `flagLoader` of the first pass: `CamelCase` is false.
With `/etc/app.toml` setting `LogLevel` to `warn` and the command line
`-conf=/etc/app.toml -log-level=debug`, the first pass leaves `LogLevel` at the
flag's `debug`, the second pass loads the file and its flag loader does not
know `-log-level`: `LoadInTurn` returns that error and `LogLevel` is the
file's `warn`. -/
theorem LoadInTurn_flags_not_reapplied :
    secondPassLoaders (str "/etc/app.toml")
        = [.TOML { Path := str "/etc/app.toml", Reader := none }, .Flag zeroFlagLoader]
    ∧ zeroFlagLoader ≠ flagLoader
    ∧ (firstPass (demoEnv [(str "/etc/app.toml", str "warn")]
          [(str "conf", str "/etc/app.toml"), (str "log-level", str "debug")]) Conf.zero).map
        (fun r => r.1) = some ⟨str "/etc/app.toml", str "aclogs", str "debug"⟩
    ∧ (LoadInTurn (demoEnv [(str "/etc/app.toml", str "warn")]
          [(str "conf", str "/etc/app.toml"), (str "log-level", str "debug")]) Conf.zero).map
        (fun o => (o.target, o.err))
        = some (⟨str "/etc/app.toml", str "aclogs", str "warn"⟩,
            some (.Errorf (str "flag provided but not defined: -log-level"))) := by
  refine ⟨by decide, by decide, by decide, by decide⟩

/-! ## The file loaders on a reader, and without a source -/

/-- C9. With a `Reader` set, for every `Path`, filesystem, working directory
and target: `TOMLLoader.Load` and `JSONLoader.Load` leave the target and
return the error that the format's decoder gives on the reader, and
`YAMLLoader.Load` does so with `yaml.Unmarshal` on the bytes read from the
reader (when reading the reader itself fails that error is returned and the
target is untouched); the only effect is the one decoder call, so the path is
neither resolved nor opened. -/
theorem fileLoaders_reader_exclusive {σ : Type} (env : Env σ) (path : GoString) (r : Reader)
    (data : GoString) (e : Error) (s : σ) :
    TOMLLoader.Load env { Path := path, Reader := some r } s
        = some ⟨(env.DecodeReader r s).1, (env.DecodeReader r s).2, [.decode .toml]⟩
    ∧ JSONLoader.Load env { Path := path, Reader := some r } s
        = some ⟨(env.Decode r s).1, (env.Decode r s).2, [.decode .json]⟩
    ∧ YAMLLoader.Load env { Path := path, Reader := some ⟨data, none⟩ } s
        = some ⟨(env.Unmarshal data s).1, (env.Unmarshal data s).2, [.decode .yaml]⟩
    ∧ YAMLLoader.Load env { Path := path, Reader := some ⟨data, some e⟩ } s
        = some ⟨s, some e, []⟩ :=
  ⟨rfl, rfl, rfl, rfl⟩

/-- C10. With a nil `Reader` and an empty `Path`, each of the three `Load`
methods returns `ErrSourceNotSet`, leaves the target as it was and has no
effect: no file is opened and no decoder is called. -/
theorem fileLoaders_source_not_set {σ : Type} (env : Env σ) (s : σ) :
    TOMLLoader.Load env { Path := [], Reader := none } s = some ⟨s, some .ErrSourceNotSet, []⟩
    ∧ JSONLoader.Load env { Path := [], Reader := none } s = some ⟨s, some .ErrSourceNotSet, []⟩
    ∧ YAMLLoader.Load env { Path := [], Reader := none } s = some ⟨s, some .ErrSourceNotSet, []⟩ :=
  ⟨rfl, rfl, rfl⟩

end Multiconfig
